import Mathlib

/-!
Shallow embedding of the numpywren core (files `numpywren/matrix.py`,
`numpywren/job_runner.py`, `numpywren/matrix_utils.py`) and proofs about it.

Conventions of the embedding:
* Python tuples of non-negative ints (block indices, shapes, shard sizes)
  become `List Nat`; every reachable use in the claims has non-negative
  entries, and the code paths that would see a negative value raise
  `NotImplementedError` in the source.
* A fallible Python call becomes `Except PyErr _`; the constructors of
  `PyErr` name the exception class (or the message of a bare `Exception`).
* The S3 object store becomes an association list from the storage-key
  string to the stored array; `np.save`/`np.load` round-tripping is the
  identity on the stored array.
-/

namespace Numpywren

/-- Python exceptions raised by the embedded code paths. -/
inductive PyErr where
  /-- `NameError`: a local variable is read before its first assignment. -/
  | nameError
  /-- `TypeError`: e.g. applying the call operator to a list object. -/
  | typeError
  /-- `IndexError`. -/
  | indexError
  /-- `ValueError`. -/
  | valueError
  /-- `KeyError`. -/
  | keyError
  /-- A bare `raise Exception(msg)`. -/
  | exception (msg : String)
  deriving DecidableEq, Repr

/-- A numpy array: a shape together with the entry at each multi-index.
Serialization (`np.save` / `np.load`) is abstracted as the identity. -/
structure NpArray where
  shape : List Nat
  entry : List Nat → Int

/-- `ndarray.T`: reverses the axis order. -/
def NpArray.T (A : NpArray) : NpArray :=
  { shape := A.shape.reverse, entry := fun idx => A.entry idx.reverse }

section AssocList
variable {α : Type} {β : Type} [DecidableEq α]

/-- Python `d[k] = v` on a dict represented as an association list:
update in place if the key is present, else append (insertion order). -/
def alSet : List (α × β) → α → β → List (α × β)
  | [], k, v => [(k, v)]
  | (k₀, v₀) :: rest, k, v =>
    if k = k₀ then (k, v) :: rest else (k₀, v₀) :: alSet rest k v

/-- Python `d.get(k)` / `d[k]` lookup. -/
def alGet : List (α × β) → α → Option β
  | [], _ => none
  | (k₀, v₀) :: rest, k => if k = k₀ then some v₀ else alGet rest k

/-- Python `del d[k]`: removes the (unique, in a dict) entry for `k`. -/
def alDel : List (α × β) → α → List (α × β)
  | [], _ => []
  | (k₀, v₀) :: rest, k => if k = k₀ then rest else (k₀, v₀) :: alDel rest k

/-- The keys of the dict, in entry order. -/
def alKeys (d : List (α × β)) : List α := d.map Prod.fst

end AssocList

/-- The S3 object store, restricted to one bucket: key string ↦ stored array. -/
def Store : Type := List (String × NpArray)

/-- The metadata of a `BigMatrix` (matrix.py, class `BigMatrix`):
`key_base = os.path.join(prefix, key)`, `shape`, `shard_sizes`, and the
optional lazy producer `parent_fn`. -/
structure BigMat where
  key_base : String
  shape : List Nat
  shard_sizes : List Nat
  parent_fn : Option (List Nat → NpArray)

/-- `BigMatrix.__block_idx_to_real_idx__` (matrix.py lines 471-479):
per axis `start = block_idx[i]*shard_sizes[i]`,
`end = min(start + shard_sizes[i], shape[i])`.  The Python loop runs over
`range(len(shape))`; with matching arities the `zip` below visits exactly
the same triples.  The function is total: it never raises for matching
arities, even when the resulting range is empty. -/
def blockIdxToRealIdx (shape shard_sizes block_idx : List Nat) : List (Nat × Nat) :=
  ((shape.zip shard_sizes).zip block_idx).map
    (fun p => (p.2 * p.1.2, min (p.2 * p.1.2 + p.1.2) p.1.1))

/-- The `"{start}_{end}_{shard_size}_"` concatenation built by
`BigMatrix.__get_matrix_shard_key__` (matrix.py lines 447-454). -/
def shardKeyString : List ((Nat × Nat) × Nat) → String
  | [] => ""
  | ((s, e), ss) :: rest =>
    toString s ++ "_" ++ toString e ++ "_" ++ toString ss ++ "_" ++ shardKeyString rest

/-- `BigMatrix.__get_matrix_shard_key__`: `os.path.join(key_base, key_string)`. -/
def getMatrixShardKey (key_base : String) (real_idxs : List (Nat × Nat))
    (shard_sizes : List Nat) : String :=
  key_base ++ "/" ++ shardKeyString (real_idxs.zip shard_sizes)

/-- `BigMatrix.__shard_idx_to_key__` (matrix.py lines 481-485). -/
def shardIdxToKey (M : BigMat) (block_idx : List Nat) : String :=
  getMatrixShardKey M.key_base
    (blockIdxToRealIdx M.shape M.shard_sizes block_idx) M.shard_sizes

/-- `BigMatrix.get_block_async` (matrix.py lines 268-298), with the S3
existence check and fetch collapsed into one store lookup (serialization is
the identity).  The arity check raises `Exception("Get block query does not
match shape")`; a missing key with no producer raises the
`"Key does ... not exist"` exception of line 292. -/
def bigMatGetBlock (M : BigMat) (store : Store) (block_idx : List Nat) :
    Except PyErr NpArray :=
  if block_idx.length ≠ M.shape.length then
    .error (.exception "Get block query does not match shape")
  else
    let key := shardIdxToKey M block_idx
    match alGet store key with
    | some X => .ok X
    | none =>
      match M.parent_fn with
      | none => .error (.exception "Key does not exist, and no parent function prescripted")
      | some f => .ok (f block_idx)

/-! ### BigSymmetricMatrix -/

/-- `BigSymmetricMatrix._symmetrize_idx` (matrix.py lines 828-832):
`if np.all(block_idx[0] > block_idx[-1]): return tuple(block_idx)
 else: return tuple(reversed(block_idx))`.
For a tuple of ints, `np.all(a > b)` is just `a > b`.  Note the direction:
the index is kept UNCHANGED when first > last, and REVERSED otherwise
(so the canonical form has first ≥ last).  `headD`/`getLastD` defaults are
irrelevant: Python raises on an empty tuple, and all uses are non-empty. -/
def symmetrizeIdx (block_idx : List Nat) : List Nat :=
  if block_idx.headD 0 > block_idx.getLastD 0 then block_idx
  else block_idx.reverse

/-- Metadata of a `BigSymmetricMatrix` (matrix.py lines 807-820): a
`BigMatrix` plus the diagonal regularizer `lambdav` (modelled over `Int`;
no claim depends on its float arithmetic). -/
structure SymMat where
  mat : BigMat
  lambdav : Int

/-- The storage key consulted by `BigSymmetricMatrix.get_block_async`
(matrix.py lines 860-863): the key of the SYMMETRIZED index. -/
def symGetStorageKey (M : SymMat) (block_idx : List Nat) : String :=
  shardIdxToKey M.mat (symmetrizeIdx block_idx)

/-- `block_idx` is a diagonal block: `len(list(set(block_idx))) == 1`
(matrix.py line 875). -/
def isDiagIdx (block_idx : List Nat) : Bool := block_idx.dedup.length = 1

/-- Add `lambdav` to the diagonal entries (matrix.py lines 876-877). -/
def addDiag (A : NpArray) (lambdav : Int) : NpArray :=
  { shape := A.shape
    entry := fun idx => if idx.dedup.length = 1 then A.entry idx + lambdav else A.entry idx }

/-- `BigSymmetricMatrix.get_block_async` (matrix.py lines 855-878): reads
the SYMMETRIZED key, transposes when the requested index differs from the
canonical one, and regularizes diagonal blocks.  The
`astype(self.dtype, loop)` cast of line 871 is elided (dtype casts are
identities in this model). -/
def symGetBlock (M : SymMat) (store : Store) (block_idx : List Nat) :
    Except PyErr NpArray :=
  let block_idx_sym := symmetrizeIdx block_idx
  let flipped := block_idx_sym ≠ block_idx
  let key := symGetStorageKey M block_idx
  let fetched : Except PyErr NpArray :=
    match alGet store key with
    | some X => .ok X
    | none =>
      match M.mat.parent_fn with
      | none => .error (.exception "Key does not exist, and no parent function prescripted")
      | some f => .ok (f block_idx_sym)
  match fetched with
  | .error e => .error e
  | .ok X =>
    let X := if flipped then X.T else X
    let X := if isDiagIdx block_idx then addDiag X M.lambdav else X
    .ok X

/-- `BigSymmetricMatrix.put_block_async` (matrix.py lines 880-898).
Line 884 reads the local variable `key` inside the `no_overwrite` branch,
but `key` is first assigned only at line 896 — so taking that branch
raises `NameError` before the existence check, the closeness assertion, or
any write.  Otherwise: symmetrize (line 888), transpose the block when the
requested index differs from canonical (lines 889-891), validate the shape
against the real range of the SYMMETRIZED index (lines 892-895), and then
write under `__shard_idx_to_key__(block_idx)` — the key of the index AS
REQUESTED, not of the canonical index (line 896).  The `astype` cast of
line 897 is elided. -/
def symPutBlock (M : SymMat) (store : Store) (block : NpArray)
    (block_idx : List Nat) (no_overwrite : Bool) : Except PyErr Store :=
  if no_overwrite then
    -- line 884: `key_exists_async(self.bucket, key, loop)` with `key` unbound
    .error .nameError
  else
    let block_idx_sym := symmetrizeIdx block_idx
    let block := if block_idx_sym ≠ block_idx then block.T else block
    let real_idxs := blockIdxToRealIdx M.mat.shape M.mat.shard_sizes block_idx_sym
    let current_shape := real_idxs.map (fun p => p.2 - p.1)
    if block.shape ≠ current_shape then
      .error (.exception "Incompatible block size")
    else
      let key := shardIdxToKey M.mat block_idx
      .ok (alSet store key block)

/-! ### The S3 fetch retry loop -/

/-- The `while` loop of `BigMatrix.__s3_key_to_byte_io__` (matrix.py lines
493-504), with `fetch n` the outcome of the `get_object` attempt made when
`n_tries = n`.  The loop runs `while bio is None and n_tries <= max_n_tries`
with `max_n_tries = 5`; on a fetch failure the `except` block executes a
bare `raise` (line 503), so the `n_tries += 1` of line 504 is unreachable
and the exception propagates at once.  `fuel` only bounds the recursion;
any `fuel ≥ 2` gives the loop's exact behaviour (the first iteration
either sets `bio` or raises). -/
def s3FetchLoop (fetch : Nat → Except String String) :
    Nat → Option String → Nat → Except String (Option String)
  | 0, bio, _ => .ok bio
  | fuel + 1, bio, n_tries =>
    if bio = none ∧ n_tries ≤ 5 then
      match fetch n_tries with
      | .ok b => s3FetchLoop fetch fuel (some b) n_tries
      | .error e => .error e
    else .ok bio

/-- `BigMatrix.__s3_key_to_byte_io__` (matrix.py lines 487-507): run the
loop from `bio = None`, `n_tries = 0`; afterwards `if bio is None:
raise Exception("S3 Read Failed")` (line 506, unreachable as written). -/
def s3KeyToBytes (fetch : Nat → Except String String) : Except String String :=
  match s3FetchLoop fetch 7 none 0 with
  | .error e => .error e
  | .ok none => .error "S3 Read Failed"
  | .ok (some b) => .ok b

/-! ### WorkerLoop queue polling (job_runner.py `lambdapack_run_async`) -/

/-- One `receive_message(QueueUrl=q, MaxNumberOfMessages=1)` call against a
deterministic queue: at most one message, the queue's head. -/
def receiveMessage (q : List Nat) : Option Nat := q.head?

/-- The inner `for queue_url in ...` loop (job_runner.py lines 132-141) on
an already-reversed queue list: poll each queue once, `continue` on empty,
`break` on the first queue that returns a message.  Returns the original
index of the selected queue (for a reversed suffix `q :: rest`, the
original index of `q` is `rest.length`) and the message. -/
def scanQueuesRev : List (List Nat) → Option (Nat × Nat)
  | [] => none
  | q :: rest =>
    match receiveMessage q with
    | some m => some (rest.length, m)
    | none => scanQueuesRev rest

/-- One poll cycle of `lambdapack_run_async` (job_runner.py lines 129-144):
`for queue_url in program.queue_urls[::-1]` — the queue list is iterated
REVERSED, i.e. from the highest-priority queue (last in `queue_urls`) down
to the lowest, committing to the first non-empty queue. -/
def pollCycle (queue_urls : List (List Nat)) : Option (Nat × Nat) :=
  scanQueuesRev queue_urls.reverse

/-! ### LambdaPackExecutor (job_runner.py lines 51-84) -/

/-- Observable events of one `LambdaPackExecutor.run` call. -/
inductive Event where
  /-- `self.program.pre_op(pc)` (line 66). -/
  | preOp (pc : Nat)
  /-- one `await instr()` that completed (line 73). -/
  | execInstr (pc : Nat) (instrId : Nat)
  /-- `self.program.post_op(pc, lp.EC.SUCCESS)` (line 76). -/
  | postOpSuccess (pc : Nat)
  /-- `self.program.post_op(pc, lp.EC.EXCEPTION, tb=tb)` (line 82). -/
  | postOpException (pc : Nat) (tb : String)
  deriving DecidableEq, Repr

/-- One instruction of an instruction block: an identifier plus the outcome
of its `await instr()` call (it either completes or raises). -/
structure Instr where
  id : Nat
  result : Except String Unit

/-- The program contract consumed by the executor: the instruction block of
each program counter, and the next counter returned by
`post_op(pc, SUCCESS)` (`None` becomes `none`). -/
structure Program where
  instBlocks : Nat → List Instr
  postOp : Nat → Option Nat

/-- `traceback.format_exc()` for the raised exception: always begins with
the traceback header, hence never empty. -/
def tbFormat (e : String) : String :=
  "Traceback (most recent call last): " ++ e

/-- The `for instr in instrs` loop (job_runner.py lines 70-75): run the
instructions strictly in sequence; stop at the first one that raises.
Returns the events of the completed instructions and the error of the
raising one, if any. -/
def execInstrs (pc : Nat) : List Instr → List Event × Option String
  | [] => ([], none)
  | i :: rest =>
    match i.result with
    | .ok _ =>
      let r := execInstrs pc rest
      (Event.execInstr pc i.id :: r.1, r.2)
    | .error e => ([], some e)

/-- The `for pc in pcs` worklist loop of `LambdaPackExecutor.run`
(job_runner.py lines 63-83).  Python iterates `pcs` by position while
`pcs.append(next_pc)` may extend it (line 78), which is exactly: process
the head of the remaining worklist, then append the returned next counter
(if non-null) at the end.  On an instruction failure, `post_op(pc,
EXCEPTION, tb)` is called with the formatted traceback and the exception is
re-raised (lines 79-83); the success-path `post_op` is skipped.  `fuel`
bounds the number of counters processed (the Python loop can chain without
bound); `none` means fuel ran out before the worklist emptied. -/
def runWorklist (P : Program) : Nat → List Nat → Option (List Event × Except String Unit)
  | _, [] => some ([], .ok ())
  | 0, _ :: _ => none
  | fuel + 1, pc :: rest =>
    let r := execInstrs pc (P.instBlocks pc)
    match r.2 with
    | some e =>
      some (Event.preOp pc :: r.1 ++ [Event.postOpException pc (tbFormat e)], .error e)
    | none =>
      let wl := match P.postOp pc with
        | some next_pc => rest ++ [next_pc]
        | none => rest
      match runWorklist P fuel wl with
      | none => none
      | some (evs, res) =>
        some (Event.preOp pc :: r.1 ++ [Event.postOpSuccess pc] ++ evs, res)

/-- `LambdaPackExecutor.run(pc)` (job_runner.py line 61): `pcs = [pc]`. -/
def runExecutor (P : Program) (fuel pc : Nat) : Option (List Event × Except String Unit) :=
  runWorklist P fuel [pc]

/-- The chain of program counters reached from `pc` by following
`post_op(·, SUCCESS)` until it returns `None`; `none` if the chain is
longer than `fuel`. -/
def pcChain (P : Program) : Nat → Nat → Option (List Nat)
  | 0, _ => none
  | fuel + 1, pc =>
    match P.postOp pc with
    | none => some [pc]
    | some next_pc => (pcChain P fuel next_pc).map (pc :: ·)

/-- The events of one successfully executed counter. -/
def blockEvents (P : Program) (pc : Nat) : List Event :=
  Event.preOp pc :: (execInstrs pc (P.instBlocks pc)).1 ++ [Event.postOpSuccess pc]

/-! ### LRUCache (job_runner.py lines 17-49) -/

/-- `LRUCache.__init__`: dict `cache`, list `key_order` (most recent
first), capacity `max_items`.  Keys and values are modelled as `Nat`. -/
structure LRUCache where
  cache : List (Nat × Nat)
  key_order : List Nat
  max_items : Nat
  deriving DecidableEq, Repr

/-- `LRUCache._mark` (job_runner.py lines 39-49): remove the key from
`key_order` if present, insert it at position 0, and if the order list now
exceeds `max_items`, evict `key_order[max_items]` — the last element — from
both the dict and the order list.  The `gc.collect()` sweep of lines 47-48
has no semantic effect and is elided.  `getD`'s default is never used: the
index `max_items` is read only when `max_items < length`. -/
def lruMark (c : LRUCache) (k : Nat) : LRUCache :=
  let ko := if k ∈ c.key_order then c.key_order.erase k else c.key_order
  let ko := k :: ko
  if c.max_items < ko.length then
    let removed := ko.getD c.max_items 0
    { cache := alDel c.cache removed
      key_order := ko.erase removed
      max_items := c.max_items }
  else
    { c with key_order := ko }

/-- `LRUCache.__setitem__` (lines 23-25): `cache[key] = value` then
`_mark(key)`. -/
def lruSet (c : LRUCache) (k v : Nat) : LRUCache :=
  lruMark { c with cache := alSet c.cache k v } k

/-- `LRUCache.__getitem__` (lines 27-34): `KeyError` when absent, else
`_mark(key)` and return the value. -/
def lruGet (c : LRUCache) (k : Nat) : Except PyErr (Nat × LRUCache) :=
  match alGet c.cache k with
  | none => .error .keyError
  | some v => .ok (v, lruMark c k)

/-- Well-formedness of a cache state (holds for the empty cache and is
preserved by `lruSet`/`lruGet`): the recency list has no duplicates, lists
exactly the dict's keys, and respects the capacity. -/
def lruWF (c : LRUCache) : Prop :=
  c.key_order.Nodup ∧ (alKeys c.cache).Perm c.key_order ∧
    c.key_order.length ≤ c.max_items

instance (c : LRUCache) : Decidable (lruWF c) := by
  unfold lruWF; infer_instance

/-! ### BigMatrixView (matrix.py lines 552-742) -/

/-- A normalized Python `slice(start, stop, step)` with all `None`s already
replaced (matrix.py lines 570-587 replace them before storing). -/
structure PySlice where
  start : Nat
  stop : Nat
  step : Nat
  deriving DecidableEq, Repr

/-- One argument of `BigMatrix.submatrix` (matrix.py lines 112-152):
`None`, an int, or a sequence of 1-3 ints. -/
inductive BlockSlice where
  | noneSpec
  | intSpec (i : Nat)
  | seqSpec (l : List Nat)
  deriving DecidableEq, Repr

/-- `BigMatrix.submatrix`'s conversion of one argument to a raw
`(start?, stop?, step?)` slice (matrix.py lines 129-150); a sequence of
length outside 1-3 raises `ValueError`. -/
def normalizeSpec : BlockSlice → Except PyErr (Option Nat × Option Nat × Option Nat)
  | .noneSpec => .ok (none, none, none)
  | .intSpec i => .ok (some i, some (i + 1), some 1)
  | .seqSpec [b] => .ok (none, some b, none)
  | .seqSpec [a, b] => .ok (some a, some b, none)
  | .seqSpec [a, b, c] => .ok (some a, some b, some c)
  | .seqSpec _ => .error .valueError

/-- The slice/transpose state of a `BigMatrixView`. -/
structure ViewMeta where
  shape : List Nat
  shard_sizes : List Nat
  parent_slices : List PySlice
  transposed : Bool

/-- `axis_lens` of `BigMatrixView.__init__` (matrix.py lines 568-569):
`ceil(parent.shape[i] / shard_sizes[i])` per axis. -/
def axisLens (parent : BigMat) : List Nat :=
  (parent.shape.zip parent.shard_sizes).map (fun p => (p.1 + p.2 - 1) / p.2)

/-- `BigMatrixView.__init__` (matrix.py lines 553-595) for already
`submatrix`-normalized raw slices: replace `None`s by `0`/`axis_lens[i]`/
`1`, compute the view's element shape per sliced axis
(`shard_sizes[i] * ceil((stop-start)/step)`, shrunk by the remainder
deficit when the slice ends at an undersized final parent block), append
full slices for trailing axes, and reverse shape and shard sizes when
transposed. -/
def mkView (parent : BigMat) (raw : List (Option Nat × Option Nat × Option Nat))
    (transposed : Bool) : ViewMeta :=
  let lens := axisLens parent
  let sliced := (List.range raw.length).map (fun i =>
    let r := raw.getD i (none, none, none)
    let al := lens.getD i 0
    let start := r.1.getD 0
    let stop := r.2.1.getD al
    let step := r.2.2.getD 1
    let sh := parent.shape.getD i 0
    let ss := parent.shard_sizes.getD i 0
    let ax := ss * ((stop - start + step - 1) / step)
    let ax := if stop = al ∧ (stop - 1 - start) % step = 0 ∧ sh % ss ≠ 0 then
        ax - (ss - sh % ss)
      else ax
    ((⟨start, stop, step⟩ : PySlice), ax))
  let trailing := (List.range (parent.shape.length - raw.length)).map (fun j =>
    let i := raw.length + j
    ((⟨0, lens.getD i 0, 1⟩ : PySlice), parent.shape.getD i 0))
  let all := sliced ++ trailing
  { shape := if transposed then (all.map Prod.snd).reverse else all.map Prod.snd
    shard_sizes := if transposed then parent.shard_sizes.reverse else parent.shard_sizes
    parent_slices := all.map Prod.fst
    transposed := transposed }

/-- The `intermediate_idx.insert(i, 0)` loop of
`BigMatrixView.__view_to_parent_block_idx__` (matrix.py lines 686-689):
for each axis `i` with `shape[i] <= shard_sizes[i]`, insert a `0` at
position `i` of the (mutating) index list. -/
def insertZeroLoop (shape shard_sizes : List Nat) : Nat → Nat → List Nat → List Nat
  | 0, _, cur => cur
  | n + 1, i, cur =>
    let cur := if shape.getD i 0 ≤ shard_sizes.getD i 0 then cur.insertIdx i 0 else cur
    insertZeroLoop shape shard_sizes n (i + 1) cur

/-- The per-axis translation loop of `__view_to_parent_block_idx__`
(matrix.py lines 695-703): `parent_elt = view_elt*step + start`; a result
`≥ stop` raises `IndexError` (the `< 0` branch cannot fire over `Nat`). -/
def translateToParent : List (PySlice × Nat) → Except PyErr (List Nat)
  | [] => .ok []
  | (sl, e) :: rest =>
    let parent_elt := e * sl.step + sl.start
    if parent_elt ≥ sl.stop then .error .indexError
    else (translateToParent rest).map (parent_elt :: ·)

/-- `BigMatrixView.__view_to_parent_block_idx__` (matrix.py lines
684-703). -/
def viewToParentBlockIdx (V : ViewMeta) (view_idx : List Nat) : Except PyErr (List Nat) :=
  let inter := if view_idx.length < V.shape.length then
      insertZeroLoop V.shape V.shard_sizes V.shape.length 0 view_idx
    else view_idx
  if inter.length ≠ V.shape.length then .error .valueError
  else
    let inter := if V.transposed then inter.reverse else inter
    translateToParent (V.parent_slices.zip inter)

/-- `BigMatrixView.__parent_to_view_block_idx__` with `axis=None`
(matrix.py lines 705-722): `(parent_elt - start) // step` per axis,
reversed when transposed.  It is only ever applied to indices that passed
the validity filter, where `parent_elt ≥ start` and the division is exact,
so `Nat` subtraction and division agree with Python. -/
def parentToViewBlockIdx (V : ViewMeta) (parent_idx : List Nat) : List Nat :=
  let vi := (parent_idx.zip V.parent_slices).map
    (fun p => (p.1 - p.2.start) / p.2.step)
  if V.transposed then vi.reverse else vi

/-- `BigMatrixView.__is_valid_parent_block_idx__` with `axis=None`
(matrix.py lines 724-742), checks in source order (`< 0` unreachable over
`Nat`): below `start` → invalid; `≥ stop` → invalid; off the step grid →
invalid. -/
def isValidParentBlockIdx (V : ViewMeta) (parent_idx : List Nat) : Bool :=
  (parent_idx.zip V.parent_slices).all (fun p =>
    if p.1 < p.2.start then false
    else if p.1 ≥ p.2.stop then false
    else (p.1 - p.2.start) % p.2.step = 0)

/-- Python `range(0, stop, step)` for `step ≥ 1`. -/
def pyRange (stop step : Nat) : List Nat :=
  (List.range ((stop + step - 1) / step)).map (· * step)

/-- `BigMatrix._blocks` for one axis (matrix.py lines 418-425):
`[(j, j + ss) for j in range(0, shape, ss)]`, popping the last pair when it
overruns `shape` and appending the remainder pair when one is missing.
(The Python `blocks_axis[-1]` would raise on an empty list, which happens
only for `shape = 0`; the `getD` defaults keep the embedding total there.) -/
def blocksAxis (shape ss : Nat) : List (Nat × Nat) :=
  let ba := (pyRange shape ss).map (fun j => (j, j + ss))
  let ba := if shape < (ba.getLastD (0, 0)).2 then ba.dropLast else ba
  let ba := if (ba.getLastD (0, 0)).2 < shape then ba ++ [((ba.getLastD (0, 0)).2, shape)]
    else ba
  ba

/-- `itertools.product` over a list of axes (rightmost axis varies
fastest). -/
def listProd : List (List Nat) → List (List Nat)
  | [] => [[]]
  | xs :: rest => xs.flatMap (fun x => (listProd rest).map (x :: ·))

/-- `BigMatrix._block_idxs(axis=None)` (matrix.py lines 438-441): the
Cartesian product of `range(len(self._blocks(axis=i)))` per axis. -/
def bigMatBlockIdxs (M : BigMat) : List (List Nat) :=
  listProd ((M.shape.zip M.shard_sizes).map (fun p => List.range (blocksAxis p.1 p.2).length))

/-- `BigMatrixView._block_idxs(axis=None)` (matrix.py lines 667-674):
filter the parent's block indices through the validity check and translate
the survivors to view coordinates.  (`__view_to_parent_axis__(None)`
returns `None` for a non-transposed view, so the parent is queried with
`axis=None`.) -/
def viewBlockIdxsUnderscore (parent : BigMat) (V : ViewMeta) : List (List Nat) :=
  ((bigMatBlockIdxs parent).filter (isValidParentBlockIdx V)).map (parentToViewBlockIdx V)

/-- Applying the Python call operator to a list object raises
`TypeError: list object is not callable`. -/
def callList {α β : Type} (_ : List α) : Except PyErr β := .error .typeError

/-- The `BigMatrixView.block_idxs` property (matrix.py lines 623-628).
Line 625 evaluates `self.parent.block_idxs()` — but `BigMatrix.block_idxs`
is a property (line 244) whose value is a LIST, so the trailing call
operator raises `TypeError` before any filtering happens. -/
def viewBlockIdxsProp (parent : BigMat) (V : ViewMeta) : Except PyErr (List (List Nat)) :=
  match (callList (bigMatBlockIdxs parent) : Except PyErr (List (List Nat))) with
  | .error e => .error e
  | .ok parent_idxs =>
    .ok ((parent_idxs.filter (isValidParentBlockIdx V)).map (parentToViewBlockIdx V))

/-- `BigMatrixView.get_block` / `get_block_async` (matrix.py lines
633-645): translate the index, delegate to the parent, and transpose the
returned block when the view is transposed. -/
def viewGetBlock (parent : BigMat) (V : ViewMeta) (store : Store)
    (block_idx : List Nat) : Except PyErr NpArray :=
  match viewToParentBlockIdx V block_idx with
  | .error e => .error e
  | .ok parent_idx =>
    match bigMatGetBlock parent store parent_idx with
    | .error e => .error e
    | .ok b => .ok (if V.transposed then b.T else b)

/-! ### Concrete fixtures used by the theorems -/

/-- A 4×4 matrix with 2×2 shards (so a 2×2 grid of blocks). -/
def M0 : BigMat :=
  { key_base := "numpywren.objects/m0", shape := [4, 4], shard_sizes := [2, 2],
    parent_fn := none }

/-- `M0` viewed as a symmetric matrix with `lambdav = 0`. -/
def S0 : SymMat := { mat := M0, lambdav := 0 }

/-- A concrete 2×2 block. -/
def B0 : NpArray :=
  { shape := [2, 2], entry := fun idx => (idx.headD 0 : Int) * 10 + (idx.getLastD 0 : Int) }

/-- A fetch oracle whose first attempt fails transiently and whose second
attempt would succeed. -/
def flakyFetch : Nat → Except String String :=
  fun n => if n = 0 then .error "connection reset" else .ok "bytes"

/-- A program whose `post_op` returns 5 for counter 1 and null for counter
5; block 1 holds instructions 10 and 11, block 5 holds instruction 50, all
succeeding. -/
def P6 : Program :=
  { instBlocks := fun pc =>
      if pc = 1 then [⟨10, .ok ()⟩, ⟨11, .ok ()⟩]
      else if pc = 5 then [⟨50, .ok ()⟩] else []
    postOp := fun pc => if pc = 1 then some 5 else none }

/-- A program whose counter-1 block has a second instruction that raises. -/
def P7 : Program :=
  { instBlocks := fun pc => if pc = 1 then [⟨10, .ok ()⟩, ⟨11, .error "boom"⟩] else []
    postOp := fun _ => none }

/-- A 1-axis parent matrix with block-count 10 (100 elements, shard 10). -/
def P9 : BigMat :=
  { key_base := "m9", shape := [100], shard_sizes := [10], parent_fn := none }

/-- The view `P9.submatrix((2, 5))`: the length-2 sequence becomes
`slice(2, 5, None)` (matrix.py lines 141-143), then `BigMatrixView.__init__`
normalizes it to `slice(2, 5, 1)`. -/
def V9 : ViewMeta := mkView P9 [(some 2, some 5, none)] false

/-- The stored block of parent index `(2,)` (real range `(20, 30)`). -/
def B9 : NpArray := { shape := [10], entry := fun idx => (idx.headD 0 : Int) }

/-- A store holding exactly the parent block `(2,)`. -/
def store9 : Store := [(shardIdxToKey P9 [2], B9)]

/-- The set of storage keys a `put_block_async` call wrote (empty when it
raised). -/
def putKeys : Except PyErr Store → List String
  | .ok s => alKeys s
  | .error _ => []

/-- Capacity-2 cache after inserting keys A=0, B=1, C=2 (values 100-102). -/
def lruScenarioC : LRUCache :=
  lruSet (lruSet (lruSet ⟨[], [], 2⟩ 0 100) 1 101) 2 102

/-- ... then accessing B=1 (the state `lruGet` returns is `lruMark _ 1`)
and inserting D=3. -/
def lruScenarioD : LRUCache := lruSet (lruMark lruScenarioC 1) 3 103

/-! ## Theorems -/

/-- C10: for every symmetric matrix, store, block and block index, calling
`put_block_async` with `no_overwrite=True` raises `NameError` (line 884
reads the local `key`, first assigned at line 896) before the existence
check, the closeness assertion, or any write — the returned value carries
no store, so stored state is untouched. -/
theorem c10_sym_put_no_overwrite_name_error (M : SymMat) (store : Store)
    (block : NpArray) (block_idx : List Nat) :
    symPutBlock M store block block_idx true = .error .nameError := rfl

/-- C10 witness: a concrete `no_overwrite=True` put on `S0`. -/
theorem c10_no_overwrite_witness :
    symPutBlock S0 [] B0 [0, 1] true = .error .nameError :=
  c10_sym_put_no_overwrite_name_error S0 [] B0 [0, 1]

/-- C3: the bare `raise` on matrix.py line 503 precedes the `n_tries`
increment, so the first transient fetch failure propagates immediately —
no retry within the `max_n_tries = 5` bound ever happens, contradicting
the claim that a success on attempt 2 would be returned.  (A first-attempt
success is returned as such.) -/
theorem c3_first_transient_failure_is_terminal :
    s3KeyToBytes flakyFetch = .error "connection reset" ∧
    s3KeyToBytes (fun _ => .ok "bytes") = .ok "bytes" :=
  ⟨rfl, rfl⟩

/-- Queues that return no message are skipped by the inner loop. -/
theorem scanQueuesRev_empty_prefix (qs rest : List (List Nat))
    (h : ∀ q ∈ qs, q = []) :
    scanQueuesRev (qs ++ rest) = scanQueuesRev rest := by
  induction qs with
  | nil => rfl
  | cons q qs ih =>
    have hq : q = [] := h q (by simp)
    subst hq
    exact ih (fun q hq => h q (by simp [hq]))

/-- C5: with `queue_urls = pre ++ [hq] ++ post` (highest priority last,
per the program contract), the queue `hq = m :: restq` non-empty, and
every higher-priority queue in `post` empty, one poll cycle requests at
most one message per queue (`receiveMessage` returns at most the head)
and commits to the head message `m` of the highest-priority non-empty
queue `hq`, whatever the lower-priority queues hold — so a message in the
highest-priority queue is always selected before any message in a
lower-priority queue. -/
theorem c5_poll_selects_highest_priority (pre : List (List Nat)) (m : Nat)
    (restq : List Nat) (post : List (List Nat)) (hpost : ∀ q ∈ post, q = []) :
    pollCycle (pre ++ (m :: restq) :: post) = some (pre.length, m) := by
  unfold pollCycle
  have hrev : (pre ++ (m :: restq) :: post).reverse =
      post.reverse ++ ((m :: restq) :: pre.reverse) := by
    simp
  rw [hrev, scanQueuesRev_empty_prefix _ _
    (fun q hq => hpost q (List.mem_reverse.mp hq))]
  simp [scanQueuesRev, receiveMessage]

/-- C5 witness: with four queues whose topmost is empty, the head of the
highest-priority non-empty queue is the message selected. -/
theorem c5_poll_witness : pollCycle [[1, 2], [3], [4, 5], []] = some (2, 4) :=
  c5_poll_selects_highest_priority [[1, 2], [3]] 4 [5] [[]] (by decide)

/-- C2: `put_block_async` on the symmetric matrix `S0` at index `(0, 1)`
transposes the block and validates it against the canonical real range,
but then writes under the key of the REQUESTED index
(`.../0_2_2_2_4_2_`), not the canonical key (`.../2_4_2_0_2_2_`) that
`get_block_async` consults for both mirror indices — so the subsequent
`get_block` of either mirror index misses the stored block. -/
theorem c2_put_writes_requested_key_not_canonical :
    symPutBlock S0 [] B0 [0, 1] false =
      .ok [("numpywren.objects/m0/0_2_2_2_4_2_", B0.T)] ∧
    symGetStorageKey S0 [0, 1] = "numpywren.objects/m0/2_4_2_0_2_2_" ∧
    symGetStorageKey S0 [1, 0] = "numpywren.objects/m0/2_4_2_0_2_2_" ∧
    symGetBlock S0 [("numpywren.objects/m0/0_2_2_2_4_2_", B0.T)] [0, 1] =
      .error (.exception "Key does not exist, and no parent function prescripted") ∧
    symGetBlock S0 [("numpywren.objects/m0/0_2_2_2_4_2_", B0.T)] [1, 0] =
      .error (.exception "Key does not exist, and no parent function prescripted") :=
  ⟨rfl, rfl, rfl, rfl, rfl⟩

/-- C9: the `block_idxs` property of the view `P9.submatrix((2, 5))`
raises `TypeError` (line 625 applies the call operator to the parent's
`block_idxs` property value, a list), while the underlying `_block_idxs`
returns the intended 3 indices `[0, 1, 2]`; `get_block(0)` on the view
translates to parent index `(2,)` and returns the parent's stored block,
and the out-of-range view index `(3,)` translates to `5 ≥ stop` and raises
`IndexError`. -/
theorem c9_view_block_idxs_and_translation :
    viewBlockIdxsProp P9 V9 = .error .typeError ∧
    viewBlockIdxsUnderscore P9 V9 = [[0], [1], [2]] ∧
    viewToParentBlockIdx V9 [0] = .ok [2] ∧
    viewGetBlock P9 V9 store9 [0] = .ok B9 ∧
    bigMatGetBlock P9 store9 [2] = .ok B9 ∧
    viewToParentBlockIdx V9 [3] = .error .indexError :=
  ⟨rfl, rfl, rfl, rfl, rfl, rfl⟩

/-- C1 (counterexample): the claim says the index `(0, 1)` — whose first
axis value is not greater than its last — is returned unchanged; the code
reverses it.  Moreover `put_block` does NOT resolve the two mirror indices
to a single storage key: the stores produced by putting at `(0, 1)` and at
`(1, 0)` hold different keys. -/
theorem c1_counterexample :
    symmetrizeIdx [0, 1] ≠ [0, 1] ∧ symmetrizeIdx [0, 1] = [1, 0] ∧
    putKeys (symPutBlock S0 [] B0 [0, 1] false) ≠
      putKeys (symPutBlock S0 [] B0.T [1, 0] false) := by
  refine ⟨by decide, by decide, by decide⟩

/-- C1 (amended): canonicalization returns the index unchanged when its
first axis value is GREATER than its last axis value, and returns the
reversed tuple otherwise; consequently `get_block` on the two mirror
indices of a 2-D block consults that single canonical storage key
(`put_block`, which keys by the index as requested, does not — see C2). -/
theorem c1_symmetrize_amended (M : SymMat) (idx : List Nat) (i j : Nat) :
    (idx.headD 0 > idx.getLastD 0 → symmetrizeIdx idx = idx) ∧
    (¬ idx.headD 0 > idx.getLastD 0 → symmetrizeIdx idx = idx.reverse) ∧
    symGetStorageKey M [i, j] = symGetStorageKey M [j, i] := by
  refine ⟨fun h => by unfold symmetrizeIdx; rw [if_pos h],
    fun h => by unfold symmetrizeIdx; rw [if_neg h], ?_⟩
  have hsym : symmetrizeIdx [i, j] = symmetrizeIdx [j, i] := by
    by_cases h1 : i > j <;> by_cases h2 : j > i <;>
      simp [symmetrizeIdx, h1, h2] <;> omega
  unfold symGetStorageKey
  rw [hsym]

/-- C1 witness: the amended direction at the concrete indices `(1, 0)`
(kept unchanged, since 1 > 0) and the shared canonical get-key of the
mirror pair `(0, 1)`/`(1, 0)`. -/
theorem c1_symmetrize_amended_witness :
    symmetrizeIdx [1, 0] = [1, 0] ∧
    symGetStorageKey S0 [0, 1] = symGetStorageKey S0 [1, 0] :=
  ⟨(c1_symmetrize_amended S0 [1, 0] 0 1).1 (by decide),
   (c1_symmetrize_amended S0 [1, 0] 0 1).2.2⟩

/-- C4 (counterexample): at shape `(4,)`, shard sizes `(2,)` and block
index `(3,)` the start `6` is at least the shape `4`, yet the code returns
the empty range `(6, 4)` normally — no `IndexError` is raised (the
function has no raise at all for matching arities). -/
theorem c4_counterexample :
    blockIdxToRealIdx [4] [2] [3] = [(6, 4)] ∧ (4 : Nat) ≤ 6 := by decide

/-- Auxiliary for C4: the per-axis content of `__block_idx_to_real_idx__`. -/
theorem blockIdxToRealIdx_getD (s : List Nat) :
    ∀ (t b : List Nat) (i : Nat), s.length = t.length → t.length = b.length →
      i < s.length →
      (blockIdxToRealIdx s t b).getD i (0, 0) =
        (b.getD i 0 * t.getD i 0,
          min (b.getD i 0 * t.getD i 0 + t.getD i 0) (s.getD i 0)) := by
  induction s with
  | nil => intro t b i _ _ hi; simp at hi
  | cons a s ih =>
    intro t b i h1 h2 hi
    cases t with
    | nil => simp at h1
    | cons c t =>
      cases b with
      | nil => simp at h2
      | cons d b =>
        cases i with
        | zero => simp [blockIdxToRealIdx]
        | succ i =>
          have h := ih t b i (by simpa using h1) (by simpa using h2) (by simpa using hi)
          simpa [blockIdxToRealIdx] using h

/-- C4 (amended): for matching arities the mapping returns one range per
axis with `start[i] = block_idx[i]*shard_sizes[i]` and
`end[i] = min(start[i] + shard_sizes[i], shape[i])`; it is total and
raises nothing — an out-of-range block index silently yields an empty
range (errors surface only later, e.g. as `get_block`'s missing-key
exception). -/
theorem c4_real_range_amended (shape shard_sizes block_idx : List Nat)
    (h1 : shape.length = shard_sizes.length)
    (h2 : shard_sizes.length = block_idx.length) :
    (blockIdxToRealIdx shape shard_sizes block_idx).length = shape.length ∧
    ∀ i, i < shape.length →
      (blockIdxToRealIdx shape shard_sizes block_idx).getD i (0, 0) =
        (block_idx.getD i 0 * shard_sizes.getD i 0,
          min (block_idx.getD i 0 * shard_sizes.getD i 0 + shard_sizes.getD i 0)
            (shape.getD i 0)) := by
  constructor
  · unfold blockIdxToRealIdx
    simp only [List.length_map, List.length_zip, h1, h2]
    omega
  · intro i hi
    exact blockIdxToRealIdx_getD shape shard_sizes block_idx i h1 h2 hi

/-- C4 witness: the amended statement evaluated at shape `(4,)`, shards
`(2,)`, block index `(3,)`. -/
theorem c4_real_range_amended_witness :
    (blockIdxToRealIdx [4] [2] [3]).length = 1 ∧
    (blockIdxToRealIdx [4] [2] [3]).getD 0 (0, 0) = (3 * 2, min (3 * 2 + 2) 4) :=
  ⟨(c4_real_range_amended [4] [2] [3] rfl rfl).1,
   (c4_real_range_amended [4] [2] [3] rfl rfl).2 0 (by decide)⟩

/-- An empty worklist ends the loop normally, whatever fuel remains. -/
theorem runWorklist_nil (P : Program) (fuel : Nat) :
    runWorklist P fuel [] = some ([], .ok ()) := by
  cases fuel <;> rfl

/-- C6: `run(pc)` maintains a worklist seeded with `pc`; when the
`post_op` chain from `pc` is `pcs` (terminating within `fuel`) and every
instruction along it succeeds, one `run` call executes every counter of
the chain — each counter's `pre_op`, its instructions strictly in
sequence, then `post_op(pc, SUCCESS)` — and returns normally.  In
particular `post_op` answers `[5, None]` for the chain `1 → 5` make
`run(1)` execute both block 1 and block 5 (see the witness). -/
theorem c6_run_executes_chain (P : Program) (fuel pc : Nat) (pcs : List Nat)
    (hchain : pcChain P fuel pc = some pcs)
    (hok : ∀ q ∈ pcs, (execInstrs q (P.instBlocks q)).2 = none) :
    runExecutor P fuel pc = some (pcs.flatMap (blockEvents P), .ok ()) := by
  induction fuel generalizing pc pcs with
  | zero => simp [pcChain] at hchain
  | succ fuel ih =>
    cases hpo : P.postOp pc with
    | none =>
      simp only [pcChain, hpo] at hchain
      obtain rfl : pcs = [pc] := by simpa using hchain.symm
      have h1 : (execInstrs pc (P.instBlocks pc)).2 = none := hok pc (by simp)
      unfold runExecutor
      simp only [runWorklist, h1, hpo, runWorklist_nil]
      simp [blockEvents]
    | some nxt =>
      simp only [pcChain, hpo] at hchain
      cases hc2 : pcChain P fuel nxt with
      | none => rw [hc2] at hchain; simp at hchain
      | some rest =>
        rw [hc2] at hchain
        obtain rfl : pcs = pc :: rest := by simpa using hchain.symm
        have h1 : (execInstrs pc (P.instBlocks pc)).2 = none := hok pc (by simp)
        have hrec := ih nxt rest hc2 (fun q hq => hok q (by simp [hq]))
        unfold runExecutor at hrec ⊢
        simp only [runWorklist, h1, hpo, List.nil_append]
        simp [hrec, blockEvents]

/-- C6 witness: for the program `P6` (`post_op 1 = 5`, `post_op 5 = None`)
a single `run(1)` with fuel 2 executes block 1's two instructions and then
block 5's instruction before returning. -/
theorem c6_witness :
    pcChain P6 2 1 = some [1, 5] ∧
    runExecutor P6 2 1 = some ([Event.preOp 1, Event.execInstr 1 10, Event.execInstr 1 11,
      Event.postOpSuccess 1, Event.preOp 5, Event.execInstr 5 50, Event.postOpSuccess 5],
      .ok ()) :=
  ⟨rfl, c6_run_executes_chain P6 2 1 [1, 5] rfl (by decide)⟩

/-- The event list produced by an instruction block contains only
`execInstr` events for that counter. -/
theorem execInstrs_events_shape (pc : Nat) :
    ∀ (l : List Instr) (ev : Event), ev ∈ (execInstrs pc l).1 →
      ∃ i, ev = Event.execInstr pc i := by
  intro l
  induction l with
  | nil => intro ev h; simp [execInstrs] at h
  | cons i rest ih =>
    intro ev h
    unfold execInstrs at h
    cases hr : i.result with
    | ok u => rw [hr] at h
              rcases List.mem_cons.mp h with h1 | h2
              · exact ⟨i.id, h1⟩
              · exact ih ev h2
    | error e => rw [hr] at h; simp at h

/-- C7: when an instruction of counter `pc`'s block raises `e`, `run`
calls `post_op(pc, EXCEPTION, tb)` with a non-empty traceback string and
re-raises `e` instead of returning normally; the success-path
`post_op(pc, SUCCESS)` never appears in the trace of the failed
counter. -/
theorem c7_instruction_failure (P : Program) (fuel pc : Nat) (e : String)
    (hfail : (execInstrs pc (P.instBlocks pc)).2 = some e) :
    runExecutor P (fuel + 1) pc =
      some (Event.preOp pc :: (execInstrs pc (P.instBlocks pc)).1 ++
        [Event.postOpException pc (tbFormat e)], .error e) ∧
    tbFormat e ≠ "" ∧
    Event.postOpSuccess pc ∉
      Event.preOp pc :: (execInstrs pc (P.instBlocks pc)).1 ++
        [Event.postOpException pc (tbFormat e)] := by
  refine ⟨?_, ?_, ?_⟩
  · unfold runExecutor
    simp only [runWorklist, hfail]
  · intro h
    have h2 := congrArg String.length h
    have h3 : ("Traceback (most recent call last): " : String).length = 35 := rfl
    rw [tbFormat, String.length_append] at h2
    simp at h2
    omega
  · intro hmem
    rcases List.mem_cons.mp hmem with h1 | h2
    · exact Event.noConfusion h1
    · rcases List.mem_append.mp h2 with h3 | h4
      · rcases execInstrs_events_shape pc _ _ h3 with ⟨i, hi⟩
        exact Event.noConfusion hi
      · simp at h4

/-- C7 witness: in `P7` the second instruction of block 1 raises `boom`;
`run(1)` reports `post_op(1, EXCEPTION, tb)` and re-raises. -/
theorem c7_witness :
    (execInstrs 1 (P7.instBlocks 1)).2 = some "boom" ∧
    runExecutor P7 1 1 = some ([Event.preOp 1, Event.execInstr 1 10,
      Event.postOpException 1 (tbFormat "boom")], .error "boom") :=
  ⟨rfl, (c7_instruction_failure P7 0 1 "boom" rfl).1⟩

theorem alKeys_nil : alKeys ([] : List (Nat × Nat)) = [] := rfl

theorem alKeys_cons (p : Nat × Nat) (rest : List (Nat × Nat)) :
    alKeys (p :: rest) = p.1 :: alKeys rest := rfl

theorem alKeys_alSet (d : List (Nat × Nat)) (k v : Nat) :
    alKeys (alSet d k v) = if k ∈ alKeys d then alKeys d else alKeys d ++ [k] := by
  induction d with
  | nil => simp [alSet, alKeys_nil, alKeys_cons]
  | cons p rest ih =>
    obtain ⟨k₀, v₀⟩ := p
    by_cases h : k = k₀
    · subst h
      simp [alSet, alKeys_cons]
    · simp only [alSet, if_neg h, alKeys_cons, ih]
      by_cases h2 : k ∈ alKeys rest
      · rw [if_pos h2, if_pos (by simp [h2])]
      · rw [if_neg h2, if_neg (by simp [h, h2]), List.cons_append]

theorem alKeys_alDel (d : List (Nat × Nat)) (k : Nat) :
    alKeys (alDel d k) = (alKeys d).erase k := by
  induction d with
  | nil => simp [alDel, alKeys_nil]
  | cons p rest ih =>
    obtain ⟨k₀, v₀⟩ := p
    by_cases h : k = k₀
    · subst h
      simp [alDel, alKeys_cons]
    · simp only [alDel, if_neg h, alKeys_cons, ih, List.erase_cons]
      simp [beq_iff_eq, Ne.symm h]

theorem alGet_eq_none_iff (d : List (Nat × Nat)) (k : Nat) :
    alGet d k = none ↔ k ∉ alKeys d := by
  induction d with
  | nil => simp [alGet, alKeys_nil]
  | cons p rest ih =>
    obtain ⟨k₀, v₀⟩ := p
    by_cases h : k = k₀
    · subst h; simp [alGet, alKeys_cons]
    · simp [alGet, alKeys_cons, h, ih]

theorem alGet_some_mem (d : List (Nat × Nat)) (k v : Nat) (h : alGet d k = some v) :
    k ∈ alKeys d := by
  by_contra hn
  rw [← alGet_eq_none_iff] at hn
  rw [hn] at h
  exact Option.noConfusion h

theorem alGet_alDel_self (d : List (Nat × Nat)) (k : Nat) (h : (alKeys d).Nodup) :
    alGet (alDel d k) k = none := by
  rw [alGet_eq_none_iff, alKeys_alDel]
  intro hmem
  exact ((List.Nodup.mem_erase_iff h).mp hmem).1 rfl

theorem lruMark_mem (c : LRUCache) (k : Nat)
    (hmem : k ∈ c.key_order) (hlen : c.key_order.length ≤ c.max_items) :
    lruMark c k = { c with key_order := k :: c.key_order.erase k } := by
  unfold lruMark
  rw [if_pos hmem, if_neg]
  have h1 : (c.key_order.erase k).length = c.key_order.length - 1 :=
    List.length_erase_of_mem hmem
  have h2 : 0 < c.key_order.length := List.length_pos.mpr (List.ne_nil_of_mem hmem)
  simp [h1]
  omega

theorem lruMark_new_room (c : LRUCache) (k : Nat)
    (hko : k ∉ c.key_order) (hlen : c.key_order.length + 1 ≤ c.max_items) :
    lruMark c k = { c with key_order := k :: c.key_order } := by
  unfold lruMark
  rw [if_neg hko, if_neg]
  simp
  omega

theorem lruMark_evict (c : LRUCache) (k : Nat)
    (hnd : c.key_order.Nodup)
    (hko : k ∉ c.key_order)
    (hlen : c.key_order.length = c.max_items)
    (hpos : 0 < c.max_items) :
    ∃ l x, c.key_order = l ++ [x] ∧ x ∉ l ∧ k ≠ x ∧
      lruMark c k =
        { cache := alDel c.cache x, key_order := k :: l, max_items := c.max_items } := by
  have hne : c.key_order ≠ [] := by
    intro h; rw [h] at hlen; simp at hlen; omega
  rcases List.eq_nil_or_concat c.key_order with h | ⟨l, x, hdec⟩
  · exact absurd h hne
  · rw [List.concat_eq_append] at hdec
    have hxl : x ∉ l := by
      rw [hdec] at hnd
      rcases List.nodup_append.mp hnd with ⟨-, -, hdisj⟩
      intro hx
      exact hdisj hx (by simp)
    have hkx : k ≠ x := by
      intro h; rw [hdec, h] at hko; simp at hko
    refine ⟨l, x, hdec, hxl, hkx, ?_⟩
    unfold lruMark
    dsimp only
    rw [if_neg hko, if_pos]
    · have hrm : (k :: c.key_order).getD c.max_items 0 = x := by
        rw [hdec]
        have hml : c.max_items = l.length + 1 := by
          rw [hdec] at hlen; simp at hlen; omega
        rw [hml, List.getD_cons_succ,
          List.getD_append_right _ _ _ _ (Nat.le_refl _)]
        simp
      have hkoerase : (k :: c.key_order).erase x = k :: l := by
        rw [List.erase_cons_tail, hdec, List.erase_append_right _ hxl]
        · simp
        · simp [hkx]
      rw [hrm, hkoerase]
    · simp
      omega

theorem lruMark_max_items (c : LRUCache) (k : Nat) :
    (lruMark c k).max_items = c.max_items := by
  unfold lruMark
  dsimp only
  split <;> split <;> rfl

theorem lruWF_cache_length (c : LRUCache) (h : lruWF c) :
    c.cache.length ≤ c.max_items := by
  obtain ⟨-, hperm, hlen⟩ := h
  have h1 := hperm.length_eq
  have h2 : (alKeys c.cache).length = c.cache.length := List.length_map _ _
  omega

theorem lruSet_wf (c : LRUCache) (k v : Nat) (h : lruWF c) :
    lruWF (lruSet c k v) := by
  obtain ⟨hnd, hperm, hlen⟩ := h
  unfold lruSet
  set cache2 := alSet c.cache k v with hc2
  have hkeys2 : alKeys cache2 =
      if k ∈ alKeys c.cache then alKeys c.cache else alKeys c.cache ++ [k] :=
    alKeys_alSet c.cache k v
  by_cases hm : k ∈ c.key_order
  · have hmk : k ∈ alKeys c.cache := hperm.mem_iff.mpr hm
    rw [if_pos hmk] at hkeys2
    rw [lruMark_mem { c with cache := cache2 } k hm hlen]
    refine ⟨?_, ?_, ?_⟩
    · exact List.Nodup.cons (fun hx => ((List.Nodup.mem_erase_iff hnd).mp hx).1 rfl)
        (List.Nodup.erase k hnd)
    · exact (hkeys2.symm ▸ hperm).trans (List.perm_cons_erase hm)
    · have h1 : (c.key_order.erase k).length = c.key_order.length - 1 :=
        List.length_erase_of_mem hm
      have h2 : 0 < c.key_order.length := List.length_pos.mpr (List.ne_nil_of_mem hm)
      simp only [List.length_cons, h1]
      omega
  · have hmk : k ∉ alKeys c.cache := fun hx => hm (hperm.mem_iff.mp hx)
    rw [if_neg hmk] at hkeys2
    by_cases hroom : c.key_order.length + 1 ≤ c.max_items
    · rw [lruMark_new_room { c with cache := cache2 } k hm hroom]
      refine ⟨List.Nodup.cons hm hnd, ?_, by simp; omega⟩
      rw [hkeys2]
      exact (List.perm_append_singleton _ _).trans (hperm.cons k)
    · by_cases hpos : 0 < c.max_items
      · have hfull : c.key_order.length = c.max_items := by omega
        obtain ⟨l, x, hdec, hxl, hkx, heq⟩ :=
          lruMark_evict { c with cache := cache2 } k hnd hm hfull hpos
        dsimp only at hdec heq
        rw [heq]
        have hxin : x ∈ alKeys c.cache := hperm.mem_iff.mpr (by rw [hdec]; simp)
        have hndl : l.Nodup := by
          rw [hdec] at hnd; exact (List.nodup_append.mp hnd).1
        have hkl : k ∉ l := by
          intro hx; exact hm (by rw [hdec]; simp [hx])
        refine ⟨List.Nodup.cons hkl hndl, ?_, ?_⟩
        · have hperm2 : ((alKeys cache2).erase x).Perm ((c.key_order ++ [k]).erase x) := by
            rw [hkeys2]
            exact List.Perm.erase x (hperm.append_right [k])
          rw [alKeys_alDel]
          have h3 : (c.key_order ++ [k]).erase x = l ++ [k] := by
            rw [hdec, List.append_assoc, List.erase_append_right _ hxl]
            simp [List.erase_cons, Ne.symm hkx]
          refine hperm2.trans ?_
          rw [h3]
          exact List.perm_append_singleton _ _
        · have hll : l.length + 1 = c.max_items := by
            rw [hdec] at hfull; simp at hfull; omega
          simpa using hll.le
      · have hmax : c.max_items = 0 := by omega
        have hko_nil : c.key_order = [] := List.eq_nil_of_length_eq_zero (by omega)
        have hkeys_nil : alKeys c.cache = [] := by
          have hp := hperm
          rw [hko_nil] at hp
          exact hp.eq_nil
        have hcache_nil : c.cache = [] := by
          cases hcc : c.cache with
          | nil => rfl
          | cons p r => rw [hcc, alKeys_cons] at hkeys_nil; exact List.noConfusion hkeys_nil
        have hc2v : cache2 = [(k, v)] := by rw [hc2, hcache_nil]; rfl
        rw [hc2v, hko_nil, hmax]
        simp [lruMark, alDel, lruWF, alKeys_nil]


/-- `_mark` (hence `__setitem__`) never changes the capacity. -/
theorem lruSet_max_items (c : LRUCache) (k v : Nat) :
    (lruSet c k v).max_items = c.max_items :=
  lruMark_max_items _ _

/-- C8: the bounded recent cache with capacity N satisfies, for every
well-formed state: (1) a put preserves well-formedness and keeps the dict
within capacity; (2) a successful get leaves the dict unchanged, preserves
well-formedness, and moves the key to the most-recently-used (front)
position; (3) a put moves the key to the front; (4) an insert of a new key
into a full cache evicts exactly the least-recently-used key (the last of
`key_order`), which is afterwards absent from the dict; (5) a get of an
absent key raises `KeyError`; (6) with capacity 2, inserting A, B, C
evicts A, and after accessing B, inserting D evicts C and keeps B. -/
theorem c8_bounded_recent_cache :
    (∀ c k v, lruWF c → lruWF (lruSet c k v) ∧ (lruSet c k v).cache.length ≤ c.max_items) ∧
    (∀ c k v c2, lruWF c → lruGet c k = .ok (v, c2) →
      lruWF c2 ∧ c2.cache = c.cache ∧ c2.key_order.head? = some k) ∧
    (∀ c k v, lruWF c → 0 < c.max_items → (lruSet c k v).key_order.head? = some k) ∧
    (∀ c k v, lruWF c → k ∉ c.key_order → c.key_order.length = c.max_items →
      0 < c.max_items →
      (lruSet c k v).key_order = k :: c.key_order.dropLast ∧
      alGet (lruSet c k v).cache (c.key_order.getLastD 0) = none) ∧
    (∀ c k, alGet c.cache k = none → lruGet c k = .error .keyError) ∧
    (alGet lruScenarioC.cache 0 = none ∧ alGet lruScenarioC.cache 1 = some 101 ∧
     alGet lruScenarioC.cache 2 = some 102 ∧
     lruGet lruScenarioC 1 = .ok (101, lruMark lruScenarioC 1) ∧
     alGet lruScenarioD.cache 2 = none ∧ alGet lruScenarioD.cache 1 = some 101 ∧
     alGet lruScenarioD.cache 3 = some 103 ∧ lruScenarioD.cache.length ≤ 2) := by
  refine ⟨?_, ?_, ?_, ?_, ?_, ?_⟩
  · intro c k v hwf
    have h1 := lruSet_wf c k v hwf
    refine ⟨h1, ?_⟩
    have h2 := lruWF_cache_length _ h1
    rwa [lruSet_max_items] at h2
  · intro c k v c2 hwf hget
    unfold lruGet at hget
    cases halg : alGet c.cache k with
    | none => rw [halg] at hget; exact absurd hget (by simp)
    | some v0 =>
      rw [halg] at hget
      simp only [Except.ok.injEq, Prod.mk.injEq] at hget
      obtain ⟨rfl, rfl⟩ := hget
      obtain ⟨hnd, hperm, hlen⟩ := hwf
      have hmk : k ∈ alKeys c.cache := alGet_some_mem _ _ _ halg
      have hm : k ∈ c.key_order := hperm.mem_iff.mp hmk
      rw [lruMark_mem c k hm hlen]
      refine ⟨⟨?_, ?_, ?_⟩, rfl, rfl⟩
      · exact List.Nodup.cons (fun hx => ((List.Nodup.mem_erase_iff hnd).mp hx).1 rfl)
          (List.Nodup.erase k hnd)
      · exact hperm.trans (List.perm_cons_erase hm)
      · have h1 : (c.key_order.erase k).length = c.key_order.length - 1 :=
          List.length_erase_of_mem hm
        have h2 : 0 < c.key_order.length := List.length_pos.mpr (List.ne_nil_of_mem hm)
        simp only [List.length_cons, h1]
        omega
  · intro c k v hwf hpos
    obtain ⟨hnd, hperm, hlen⟩ := hwf
    unfold lruSet
    by_cases hm : k ∈ c.key_order
    · rw [lruMark_mem { c with cache := alSet c.cache k v } k hm hlen]; rfl
    · by_cases hroom : c.key_order.length + 1 ≤ c.max_items
      · rw [lruMark_new_room { c with cache := alSet c.cache k v } k hm hroom]; rfl
      · have hfull : c.key_order.length = c.max_items := by omega
        obtain ⟨l, x, hdec, hxl, hkx, heq⟩ :=
          lruMark_evict { c with cache := alSet c.cache k v } k hnd hm hfull hpos
        rw [heq]; rfl
  · intro c k v hwf hko hfull hpos
    obtain ⟨hnd, hperm, hlen⟩ := hwf
    have hmk : k ∉ alKeys c.cache := fun hx => hko (hperm.mem_iff.mp hx)
    unfold lruSet
    obtain ⟨l, x, hdec, hxl, hkx, heq⟩ :=
      lruMark_evict { c with cache := alSet c.cache k v } k hnd hko hfull hpos
    dsimp only at hdec heq
    rw [heq]
    constructor
    · show k :: l = k :: c.key_order.dropLast
      rw [hdec, List.dropLast_concat]
    · show alGet (alDel (alSet c.cache k v) x) (c.key_order.getLastD 0) = none
      have hgl : c.key_order.getLastD 0 = x := by
        rw [hdec]; exact List.getLastD_concat _ _ _
      rw [hgl]
      apply alGet_alDel_self
      rw [alKeys_alSet, if_neg hmk]
      have hknodup : (alKeys c.cache).Nodup := hperm.nodup_iff.mpr hnd
      refine List.nodup_append.mpr ⟨hknodup, List.nodup_singleton k, ?_⟩
      intro a ha hb
      simp at hb
      subst hb
      exact hmk ha
  · intro c k h
    unfold lruGet
    rw [h]
  · exact ⟨by decide, by decide, by decide, by rfl, by decide, by decide, by decide, by decide⟩

/-- C8 witness: the put-preservation clause applied to the empty
capacity-2 cache. -/
theorem c8_witness :
    lruWF (lruSet ⟨[], [], 2⟩ 5 50) ∧ (lruSet ⟨[], [], 2⟩ 5 50).cache.length ≤ 2 :=
  c8_bounded_recent_cache.1 ⟨[], [], 2⟩ 5 50 (by decide)

end Numpywren
